import Mathlib

/-!
Verification of `convert_tlm_file.py` (cFS-EDS-GroundStation telemetry file
converter).  The Python module is shallowly embedded below: Python `str` values
are Lean `String`s (or `List Char` where character-level processing matters),
Python `bytes` are `List Nat` with every element `< 256`, and the generator
`read_packet` becomes a recursive function producing the list of yielded
chunks.  The external EdsLib / CFE_MissionLib decoder is out of scope of the
repository and appears only as a boundary parameter.
-/

/-- Decoded EDS object tree handed back by the external decoder.  The source
probes node kinds at runtime with `eds_db.IsArray` / `eds_db.IsContainer`;
the embedding replaces runtime probing by the three constructors.  A `Scalar`
carries the textual rendering that Python string formatting would produce for
the leaf value. -/
inductive TypedValue where
  | Scalar (rendered : String)
  | Array (elems : List TypedValue)
  | Container (fields : List (String × TypedValue))

/-- Left justification to a minimum field width, as performed by the Python
format spec used for screen output (pad on the right with spaces up to the
requested width, leave longer strings unchanged). -/
def ljust (s : String) (width : Nat) : String :=
  s ++ String.mk (List.replicate (width - s.length) ' ')

mutual

/-- `tlm_display_string(output_flag, eds_db, base_object, base_name, message)`
from the source.  Array nodes loop over `range(len(base_object))` appending
`[i]` to the name; container nodes loop over the `(name, child)` pairs
appending `.name`; every other node is a leaf and is rendered according to
`output_flag`.  The final `else` branch of the source prints a diagnostic and
sets `result = ''`, which the embedding models by returning the empty string
(console output is not part of the returned value). -/
def tlm_display_string (output_flag : String) : TypedValue → String → String → String
  | .Array elems, base_name, message => tds_elems output_flag elems base_name 0 message
  | .Container fields, base_name, message => tds_fields output_flag fields base_name message
  | .Scalar v, base_name, message =>
      if output_flag = "screen" then message ++ ljust base_name 60 ++ " = " ++ v ++ "\n"
      else if output_flag = "labels" then message ++ base_name ++ ", "
      else if output_flag = "values" then message ++ v ++ ", "
      else ""

/-- The `for i in range(len(base_object))` loop of `tlm_display_string`,
threading the accumulated `result` string and the running index. -/
def tds_elems (output_flag : String) : List TypedValue → String → Nat → String → String
  | [], _, _, message => message
  | e :: rest, base_name, i, message =>
      tds_elems output_flag rest base_name (i + 1)
        (tlm_display_string output_flag e (base_name ++ "[" ++ toString i ++ "]") message)

/-- The `for item in base_object` loop of `tlm_display_string` over container
fields, threading the accumulated `result` string. -/
def tds_fields (output_flag : String) : List (String × TypedValue) → String → String → String
  | [], _, message => message
  | (n, c) :: rest, base_name, message =>
      tds_fields output_flag rest base_name
        (tlm_display_string output_flag c (base_name ++ "." ++ n) message)

end

mutual

/-- Specification-level flattener, written from the claim wording: depth-first
pre-order traversal producing the ordered list of (field path, rendered value)
pairs; array elements in ascending index order with `[i]` appended, container
fields in declared order with `.name` appended, one pair per scalar leaf. -/
def flatten : TypedValue → String → List (String × String)
  | .Scalar v, base => [(base, v)]
  | .Array elems, base => flatten_elems elems base 0
  | .Container fields, base => flatten_fields fields base

/-- Pre-order flattening of array elements starting at index `i`. -/
def flatten_elems : List TypedValue → String → Nat → List (String × String)
  | [], _, _ => []
  | e :: rest, base, i =>
      flatten e (base ++ "[" ++ toString i ++ "]") ++ flatten_elems rest base (i + 1)

/-- Pre-order flattening of container fields in declared order. -/
def flatten_fields : List (String × TypedValue) → String → List (String × String)
  | [], _ => []
  | (n, c) :: rest, base => flatten c (base ++ "." ++ n) ++ flatten_fields rest base

end

/-- How one flattened leaf is rendered by each of the three recognized output
modes of `tlm_display_string`. -/
def render_leaf (output_flag : String) (pv : String × String) : String :=
  if output_flag = "screen" then ljust pv.1 60 ++ " = " ++ pv.2 ++ "\n"
  else if output_flag = "labels" then pv.1 ++ ", "
  else pv.2 ++ ", "

/-- Concatenation of a list of strings. -/
def str_concat : List String → String
  | [] => ""
  | s :: rest => s ++ str_concat rest

/-- Structural shape of a `TypedValue`: the tree with every scalar value
erased.  Two telemetry objects of the same message type have the same shape. -/
inductive TlmShape where
  | Scalar
  | Array (elems : List TlmShape)
  | Container (fields : List (String × TlmShape))

mutual

/-- Shape (value erasure) of a decoded tree. -/
def tlm_shape : TypedValue → TlmShape
  | .Scalar _ => .Scalar
  | .Array elems => .Array (tlm_shape_elems elems)
  | .Container fields => .Container (tlm_shape_fields fields)

/-- Shapes of a list of array elements. -/
def tlm_shape_elems : List TypedValue → List TlmShape
  | [] => []
  | e :: rest => tlm_shape e :: tlm_shape_elems rest

/-- Shapes of a list of container fields. -/
def tlm_shape_fields : List (String × TypedValue) → List (String × TlmShape)
  | [] => []
  | (n, c) :: rest => (n, tlm_shape c) :: tlm_shape_fields rest

end

mutual

/-- The sequence of field paths determined by a shape alone. -/
def shape_paths : TlmShape → String → List String
  | .Scalar, base => [base]
  | .Array elems, base => shape_paths_elems elems base 0
  | .Container fields, base => shape_paths_fields fields base

/-- Paths of array elements starting at index `i`. -/
def shape_paths_elems : List TlmShape → String → Nat → List String
  | [], _, _ => []
  | e :: rest, base, i =>
      shape_paths e (base ++ "[" ++ toString i ++ "]") ++ shape_paths_elems rest base (i + 1)

/-- Paths of container fields in declared order. -/
def shape_paths_fields : List (String × TlmShape) → String → List String
  | [], _ => []
  | (n, c) :: rest, base => shape_paths c (base ++ "." ++ n) ++ shape_paths_fields rest base

end

mutual

/-- Whether a tree contains at least one scalar leaf (i.e. whether the leaf
branch of `tlm_display_string` executes at least once on it). -/
def has_scalar : TypedValue → Bool
  | .Scalar _ => true
  | .Array elems => has_scalar_elems elems
  | .Container fields => has_scalar_fields fields

/-- `has_scalar` over array elements. -/
def has_scalar_elems : List TypedValue → Bool
  | [] => false
  | e :: rest => has_scalar e || has_scalar_elems rest

/-- `has_scalar` over container fields. -/
def has_scalar_fields : List (String × TypedValue) → Bool
  | [] => false
  | (_, c) :: rest => has_scalar c || has_scalar_fields rest

end

/-- The lowercase hex digit character for `n < 16`, as produced by Python's
`bytes.hex()`. -/
def hexDigit (n : Nat) : Char :=
  if n < 10 then Char.ofNat (48 + n) else Char.ofNat (87 + n)

/-- `packet.hex()`: the lowercase hexadecimal character string of a byte
sequence, two characters per byte, high nibble first. -/
def bytes_hex : List Nat → List Char
  | [] => []
  | b :: rest => hexDigit (b / 16) :: hexDigit (b % 16) :: bytes_hex rest

/-- The loop of `hex_string`: `for i in range(0, len(string), 2)` consumes the
input two characters at a time, emits `0x` followed by the two characters
uppercased and a space, increments `count`, and appends a newline whenever
`count % bytes_per_line == 0`.  The `count` argument holds the number of bytes
already emitted.  (On an odd-length input Python would fault indexing
`string[i+1]`, and with `bytes_per_line = 0` the modulo would fault; all uses
in the module pass `packet.hex()`, which has even length, and the constant 16,
so neither case arises and they lie outside the claims proved below.) -/
def hex_string_go (bytes_per_line : Nat) : List Char → Nat → List Char
  | c1 :: c2 :: rest, count =>
      '0' :: 'x' :: c1.toUpper :: c2.toUpper :: ' ' ::
        ((if (count + 1) % bytes_per_line = 0 then ['\n'] else []) ++
          hex_string_go bytes_per_line rest (count + 1))
  | _, _ => []

/-- `hex_string(string, bytes_per_line)` from the source: groups the hex
character string of a packet into `0xHH` byte cells, `bytes_per_line` cells
per line. -/
def hex_string (s : List Char) (bytes_per_line : Nat) : List Char :=
  hex_string_go bytes_per_line s 0

/-- The uppercase hex digit character for `n < 16`, used by the
specification-level rendering below. -/
def upHex (n : Nat) : Char :=
  if n < 10 then Char.ofNat (48 + n) else Char.ofNat (55 + n)

/-- Specification-level rendering, written from the claim wording: each byte
becomes `0xHH` with two uppercase hex digits followed by a space, and a line
break is inserted after every `bytes_per_line` bytes.  `count` is the number
of bytes already rendered. -/
def hex_render_spec : List Nat → Nat → Nat → List Char
  | [], _, _ => []
  | b :: rest, bytes_per_line, count =>
      '0' :: 'x' :: upHex (b / 16) :: upHex (b % 16) :: ' ' ::
        ((if (count + 1) % bytes_per_line = 0 then ['\n'] else []) ++
          hex_render_spec rest bytes_per_line (count + 1))

/-- Whitespace characters appearing in `hex_string` output. -/
def is_ws (c : Char) : Bool :=
  c == ' ' || c == '\n'

/-- Strips the leading `0x` marker of every byte cell from a whitespace-free
hex listing, keeping the two digit characters of each cell. -/
def strip0x : List Char → List Char
  | '0' :: 'x' :: c1 :: c2 :: rest => c1 :: c2 :: strip0x rest
  | other => other

/-- Numeric value of a hex digit character (either case). -/
def hexCharVal (c : Char) : Nat :=
  if '0' ≤ c ∧ c ≤ '9' then c.toNat - 48
  else if 'a' ≤ c ∧ c ≤ 'f' then c.toNat - 87
  else if 'A' ≤ c ∧ c ≤ 'F' then c.toNat - 55
  else 0

/-- Decodes a hex digit character string back into bytes, two characters per
byte. -/
def decode_hex : List Char → List Nat
  | c1 :: c2 :: rest => (16 * hexCharVal c1 + hexCharVal c2) :: decode_hex rest
  | _ => []

/-- `int.from_bytes(bs, byteorder='big', signed=False)`: big-endian unsigned
interpretation of a byte string; the empty string yields 0. -/
def int_from_bytes (bs : List Nat) : Nat :=
  bs.foldl (fun acc b => 256 * acc + b) 0

/-- The `read_packet` generator from the source, as the list of chunks it
yields.  `content` is the file content remaining at the current read
position; each iteration performs `file_object.read(packet_length)`, which
returns `content.take packet_length`, breaks out of the loop when that read
is empty, and otherwise yields the chunk and continues on the rest of the
file.  A trailing chunk shorter than `packet_length` is yielded like any
other. -/
def read_packet (packet_length : Nat) (content : List Nat) : List (List Nat) :=
  if (content.take packet_length).isEmpty then []
  else content.take packet_length :: read_packet packet_length (content.drop packet_length)
termination_by content.length
decreasing_by
  rename_i h
  simp only [List.isEmpty_iff, List.take_eq_nil_iff, not_or] at h
  have hlen : 0 < content.length := List.length_pos.mpr h.2
  have hpl : packet_length ≠ 0 := h.1
  simp only [List.length_drop]
  omega

/-- Observable file-handle events of one conversion run: a write of one string
to the destination CSV file, and the closing of the source (`fin.close()`)
and destination (`fout.close()`) handles. -/
inductive Ev where
  | write (s : String)
  | close_fin
  | close_fout
deriving DecidableEq, Repr

/-- The `for packet in read_packet(fin, packet_length)` loop of `main`, for a
run without the `-s` screen flag.  `decode` is the external
`decode_message` boundary (EdsLib / CFE_MissionLib, outside this repository),
returning the entry name and decoded object of a packet, or raising a decode
error.  Each iteration writes the labels line first if not yet written, then
the values line; a decode exception aborts the loop, discarding no
already-performed writes but performing no further ones.  Returns the events
of the loop together with the uncaught exception, if any. -/
def main_loop (decode : List Nat → Except String (String × TypedValue)) :
    Bool → List (List Nat) → List Ev × Option String
  | _, [] => ([], none)
  | labels_printed, packet :: rest =>
      match decode packet with
      | .error e => ([], some e)
      | .ok r =>
          let head_writes :=
            (if labels_printed then []
             else [Ev.write (tlm_display_string "labels" r.2 r.1 "" ++ "\n")]) ++
            [Ev.write (tlm_display_string "values" r.2 r.1 "" ++ "\n")]
          let tail := main_loop decode true rest
          (head_writes ++ tail.1, tail.2)

/-- The body of `main` from the point where the input file is open, for a run
without the `-s` flag: read the 4-byte big-endian length prefix, stream the
remaining content through `read_packet` and the conversion loop, and — only
when the loop finishes without an exception — execute `fin.close()` and
`fout.close()`.  An exception propagating out of the loop reaches the end of
the process without either close being executed. -/
def main_run (decode : List Nat → Except String (String × TypedValue))
    (source : List Nat) : List Ev × Option String :=
  let packet_length := int_from_bytes (source.take 4)
  let loop := main_loop decode false (read_packet packet_length (source.drop 4))
  match loop.2 with
  | some e => (loop.1, some e)
  | none => (loop.1 ++ [Ev.close_fin, Ev.close_fout], none)

/-- Number of destination-file writes in an event trace. -/
def count_writes : List Ev → Nat
  | [] => 0
  | Ev.write _ :: rest => count_writes rest + 1
  | _ :: rest => count_writes rest

/-- A concrete always-succeeding decoder used to evaluate the driver model on
concrete inputs. -/
def decode0 : List Nat → Except String (String × TypedValue) :=
  fun _ => .ok ("T", .Scalar "1")

/-- A concrete always-failing decoder used to evaluate the driver model on
concrete inputs. -/
def decodeFail : List Nat → Except String (String × TypedValue) :=
  fun _ => .error "decode"

/-! ### Helper lemmas -/

theorem str_concat_append (a b : List String) :
    str_concat (a ++ b) = str_concat a ++ str_concat b := by
  induction a with
  | nil => simp [str_concat, String.empty_append]
  | cons s rest ih => simp [str_concat, ih, String.append_assoc]

mutual

theorem tds_eq_flatten (flag : String)
    (hf : flag = "screen" ∨ flag = "labels" ∨ flag = "values")
    (t : TypedValue) (base msg : String) :
    tlm_display_string flag t base msg =
      msg ++ str_concat ((flatten t base).map (render_leaf flag)) := by
  cases t with
  | Scalar v =>
      rcases hf with hf | hf | hf <;> subst hf <;>
        simp [tlm_display_string, flatten, render_leaf, str_concat,
          String.append_assoc, String.append_empty]
  | Array elems =>
      simp only [tlm_display_string, flatten]
      exact tds_elems_eq_flatten flag hf elems base 0 msg
  | Container fields =>
      simp only [tlm_display_string, flatten]
      exact tds_fields_eq_flatten flag hf fields base msg

theorem tds_elems_eq_flatten (flag : String)
    (hf : flag = "screen" ∨ flag = "labels" ∨ flag = "values")
    (l : List TypedValue) (base : String) (i : Nat) (msg : String) :
    tds_elems flag l base i msg =
      msg ++ str_concat ((flatten_elems l base i).map (render_leaf flag)) := by
  cases l with
  | nil => simp [tds_elems, flatten_elems, str_concat, String.append_empty]
  | cons e rest =>
      simp only [tds_elems, flatten_elems]
      rw [tds_elems_eq_flatten flag hf rest base (i + 1),
        tds_eq_flatten flag hf e (base ++ "[" ++ toString i ++ "]") msg]
      simp [List.map_append, str_concat_append, String.append_assoc]

theorem tds_fields_eq_flatten (flag : String)
    (hf : flag = "screen" ∨ flag = "labels" ∨ flag = "values")
    (l : List (String × TypedValue)) (base msg : String) :
    tds_fields flag l base msg =
      msg ++ str_concat ((flatten_fields l base).map (render_leaf flag)) := by
  cases l with
  | nil => simp [tds_fields, flatten_fields, str_concat, String.append_empty]
  | cons nc rest =>
      obtain ⟨n, c⟩ := nc
      simp only [tds_fields, flatten_fields]
      rw [tds_fields_eq_flatten flag hf rest base,
        tds_eq_flatten flag hf c (base ++ "." ++ n) msg]
      simp [List.map_append, str_concat_append, String.append_assoc]

end

mutual

theorem flatten_paths (t : TypedValue) (base : String) :
    (flatten t base).map Prod.fst = shape_paths (tlm_shape t) base := by
  cases t with
  | Scalar v => simp [flatten, tlm_shape, shape_paths]
  | Array elems =>
      simp only [flatten, tlm_shape, shape_paths]
      exact flatten_paths_elems elems base 0
  | Container fields =>
      simp only [flatten, tlm_shape, shape_paths]
      exact flatten_paths_fields fields base

theorem flatten_paths_elems (l : List TypedValue) (base : String) (i : Nat) :
    (flatten_elems l base i).map Prod.fst =
      shape_paths_elems (tlm_shape_elems l) base i := by
  cases l with
  | nil => simp [flatten_elems, tlm_shape_elems, shape_paths_elems]
  | cons e rest =>
      simp only [flatten_elems, tlm_shape_elems, shape_paths_elems, List.map_append]
      rw [flatten_paths e (base ++ "[" ++ toString i ++ "]"),
        flatten_paths_elems rest base (i + 1)]

theorem flatten_paths_fields (l : List (String × TypedValue)) (base : String) :
    (flatten_fields l base).map Prod.fst =
      shape_paths_fields (tlm_shape_fields l) base := by
  cases l with
  | nil => simp [flatten_fields, tlm_shape_fields, shape_paths_fields]
  | cons nc rest =>
      obtain ⟨n, c⟩ := nc
      simp only [flatten_fields, tlm_shape_fields, shape_paths_fields, List.map_append]
      rw [flatten_paths c (base ++ "." ++ n), flatten_paths_fields rest base]

end

theorem render_labels_map (l : List (String × String)) :
    l.map (render_leaf "labels") = (l.map Prod.fst).map (fun p => p ++ ", ") := by
  induction l with
  | nil => simp
  | cons pv rest ih => simp [render_leaf, ih]

mutual

theorem tds_bad_mode (flag : String)
    (h1 : flag ≠ "screen") (h2 : flag ≠ "labels") (h3 : flag ≠ "values")
    (t : TypedValue) (base msg : String) :
    tlm_display_string flag t base msg = if has_scalar t then "" else msg := by
  cases t with
  | Scalar v => simp [tlm_display_string, has_scalar, h1, h2, h3]
  | Array elems =>
      simp only [tlm_display_string, has_scalar]
      exact tds_elems_bad_mode flag h1 h2 h3 elems base 0 msg
  | Container fields =>
      simp only [tlm_display_string, has_scalar]
      exact tds_fields_bad_mode flag h1 h2 h3 fields base msg

theorem tds_elems_bad_mode (flag : String)
    (h1 : flag ≠ "screen") (h2 : flag ≠ "labels") (h3 : flag ≠ "values")
    (l : List TypedValue) (base : String) (i : Nat) (msg : String) :
    tds_elems flag l base i msg = if has_scalar_elems l then "" else msg := by
  cases l with
  | nil => simp [tds_elems, has_scalar_elems]
  | cons e rest =>
      simp only [tds_elems, has_scalar_elems]
      rw [tds_elems_bad_mode flag h1 h2 h3 rest base (i + 1),
        tds_bad_mode flag h1 h2 h3 e (base ++ "[" ++ toString i ++ "]") msg]
      by_cases hs : has_scalar e = true <;> by_cases hs' : has_scalar_elems rest = true <;>
        simp [hs, hs']

theorem tds_fields_bad_mode (flag : String)
    (h1 : flag ≠ "screen") (h2 : flag ≠ "labels") (h3 : flag ≠ "values")
    (l : List (String × TypedValue)) (base msg : String) :
    tds_fields flag l base msg = if has_scalar_fields l then "" else msg := by
  cases l with
  | nil => simp [tds_fields, has_scalar_fields]
  | cons nc rest =>
      obtain ⟨n, c⟩ := nc
      simp only [tds_fields, has_scalar_fields]
      rw [tds_fields_bad_mode flag h1 h2 h3 rest base,
        tds_bad_mode flag h1 h2 h3 c (base ++ "." ++ n) msg]
      by_cases hs : has_scalar c = true <;> by_cases hs' : has_scalar_fields rest = true <;>
        simp [hs, hs']

end

theorem list_getLast_cons {α : Type} (x : α) (l : List α) (h : l ≠ []) :
    (x :: l).getLast? = l.getLast? := by
  cases l with
  | nil => simp at h
  | cons a as => simp [List.getLast?_cons_cons]

theorem read_packet_eq (pl : Nat) (h : 0 < pl) (content : List Nat) :
    read_packet pl content =
      if content = [] then [] else content.take pl :: read_packet pl (content.drop pl) := by
  conv_lhs => rw [read_packet.eq_def]
  rcases content with _ | ⟨a, l⟩
  · simp
  · have hne : (((a :: l).take pl).isEmpty) = false := by
      simp [List.isEmpty_iff, List.take_eq_nil_iff]
      omega
    simp [hne]

theorem read_packet_nil (pl : Nat) : read_packet pl [] = [] := by
  rw [read_packet.eq_def]; simp

theorem read_packet_zero (content : List Nat) : read_packet 0 content = [] := by
  rw [read_packet.eq_def]; simp

theorem read_packet_flatten (pl : Nat) (h : 0 < pl) (content : List Nat) :
    (read_packet pl content).flatten = content := by
  rw [read_packet_eq pl h content]
  by_cases hc : content = []
  · simp [hc]
  · simp only [if_neg hc, List.flatten_cons]
    rw [read_packet_flatten pl h (content.drop pl)]
    exact List.take_append_drop pl content
termination_by content.length
decreasing_by
  have : 0 < content.length := List.length_pos.mpr hc
  simp only [List.length_drop]
  omega

theorem read_packet_getLast (pl : Nat) (h : 0 < pl) (content : List Nat)
    (hm : content.length % pl ≠ 0) :
    ∃ last, (read_packet pl content).getLast? = some last ∧
      last.length = content.length % pl ∧ last ≠ [] ∧ last.length < pl := by
  have hne : content ≠ [] := by
    intro he
    rw [he] at hm
    simp at hm
  rw [read_packet_eq pl h content, if_neg hne]
  by_cases hle : content.length ≤ pl
  · have hlt : content.length < pl := by
      rcases Nat.lt_or_ge content.length pl with hl | hg
      · exact hl
      · exfalso
        have heq : content.length = pl := le_antisymm hle hg
        rw [heq, Nat.mod_self] at hm
        exact hm rfl
    have hdrop : content.drop pl = [] := by
      apply List.drop_eq_nil_of_le hle
    have htake : content.take pl = content := List.take_of_length_le hle
    rw [hdrop, read_packet_nil, htake]
    exact ⟨content, by simp, by rw [Nat.mod_eq_of_lt hlt], hne, hlt⟩
  · push_neg at hle
    have hmod : (content.drop pl).length % pl = content.length % pl := by
      simp only [List.length_drop]
      conv_rhs => rw [show content.length = pl + (content.length - pl) by omega]
      rw [Nat.add_mod_left]
    have hm' : (content.drop pl).length % pl ≠ 0 := by rw [hmod]; exact hm
    obtain ⟨last, hl1, hl2, hl3, hl4⟩ := read_packet_getLast pl h (content.drop pl) hm'
    have htne : read_packet pl (content.drop pl) ≠ [] := by
      intro he
      rw [he] at hl1
      simp at hl1
    refine ⟨last, ?_, ?_, hl3, hl4⟩
    · rw [list_getLast_cons _ _ htne]
      exact hl1
    · rw [hl2, hmod]
termination_by content.length
decreasing_by
  have : 0 < content.length := List.length_pos.mpr hne
  simp only [List.length_drop]
  omega

theorem count_writes_append (a b : List Ev) :
    count_writes (a ++ b) = count_writes a + count_writes b := by
  induction a with
  | nil => simp [count_writes]
  | cons e rest ih =>
      cases e with
      | write s =>
          rw [List.cons_append]
          simp only [count_writes]
          rw [ih]
          omega
      | close_fin =>
          rw [List.cons_append]
          simp only [count_writes]
          exact ih
      | close_fout =>
          rw [List.cons_append]
          simp only [count_writes]
          exact ih

theorem count_writes_map_write {α : Type} (g : α → String) (l : List α) :
    count_writes (l.map fun a => Ev.write (g a)) = l.length := by
  induction l with
  | nil => simp [count_writes]
  | cons a rest ih => simp [count_writes, ih]

theorem main_loop_writes_only (decode : List Nat → Except String (String × TypedValue))
    (packets : List (List Nat)) :
    ∀ (lp : Bool) (e : Ev), e ∈ (main_loop decode lp packets).1 → ∃ s, e = Ev.write s := by
  induction packets with
  | nil =>
      intro lp e he
      simp [main_loop] at he
  | cons p rest ih =>
      intro lp e he
      cases hd : decode p with
      | error err => simp [main_loop, hd] at he
      | ok r =>
          simp only [main_loop, hd] at he
          cases lp with
          | false =>
              simp at he
              rcases he with he | he | he
              · exact ⟨_, he⟩
              · exact ⟨_, he⟩
              · exact ih true e he
          | true =>
              simp at he
              rcases he with he | he
              · exact ⟨_, he⟩
              · exact ih true e he

theorem main_loop_ok_true (decode : List Nat → Except String (String × TypedValue))
    (f : List Nat → String × TypedValue) (packets : List (List Nat))
    (hok : ∀ q ∈ packets, decode q = Except.ok (f q)) :
    main_loop decode true packets =
      (packets.map (fun q => Ev.write (tlm_display_string "values" (f q).2 (f q).1 "" ++ "\n")),
        none) := by
  induction packets with
  | nil => simp [main_loop]
  | cons p rest ih =>
      have hp := hok p (by simp)
      have hrest : ∀ q ∈ rest, decode q = Except.ok (f q) := fun q hq => hok q (by simp [hq])
      simp [main_loop, hp, ih hrest]

theorem main_loop_ok_false (decode : List Nat → Except String (String × TypedValue))
    (f : List Nat → String × TypedValue) (p : List Nat) (ps : List (List Nat))
    (hok : ∀ q ∈ p :: ps, decode q = Except.ok (f q)) :
    main_loop decode false (p :: ps) =
      (Ev.write (tlm_display_string "labels" (f p).2 (f p).1 "" ++ "\n") ::
        Ev.write (tlm_display_string "values" (f p).2 (f p).1 "" ++ "\n") ::
        ps.map (fun q => Ev.write (tlm_display_string "values" (f q).2 (f q).1 "" ++ "\n")),
        none) := by
  have hp := hok p (by simp)
  have hrest : ∀ q ∈ ps, decode q = Except.ok (f q) := fun q hq => hok q (by simp [hq])
  simp [main_loop, hp, main_loop_ok_true decode f ps hrest]

theorem hexUpper : ∀ v, v < 16 → (hexDigit v).toUpper = upHex v := by decide

theorem hexVal_up : ∀ v, v < 16 → hexCharVal (upHex v) = v := by decide

theorem is_ws_upHex : ∀ v, v < 16 → is_ws (upHex v) = false := by decide

theorem not_ws_zero : (!is_ws '0') = true := by decide

theorem not_ws_x : (!is_ws 'x') = true := by decide

theorem not_ws_space : (!is_ws ' ') = false := by decide

theorem not_ws_nl : (!is_ws '\n') = false := by decide

theorem hex_string_go_spec (bpl : Nat) : ∀ bs : List Nat, (∀ b ∈ bs, b < 256) →
    ∀ count, hex_string_go bpl (bytes_hex bs) count = hex_render_spec bs bpl count := by
  intro bs
  induction bs with
  | nil =>
      intro _ count
      simp [bytes_hex, hex_string_go, hex_render_spec]
  | cons b rest ih =>
      intro hb count
      have hbb : b < 256 := hb b (by simp)
      have hrest : ∀ q ∈ rest, q < 256 := fun q hq => hb q (by simp [hq])
      have hdiv : b / 16 < 16 := by omega
      have hmod : b % 16 < 16 := by omega
      simp only [bytes_hex, hex_string_go, hex_render_spec]
      rw [hexUpper _ hdiv, hexUpper _ hmod, ih hrest (count + 1)]

theorem hex_render_decode (bpl : Nat) : ∀ bs : List Nat, (∀ b ∈ bs, b < 256) →
    ∀ count,
      decode_hex (strip0x ((hex_render_spec bs bpl count).filter (fun c => !is_ws c))) = bs := by
  intro bs
  induction bs with
  | nil =>
      intro _ count
      simp [hex_render_spec, strip0x, decode_hex]
  | cons b rest ih =>
      intro hb count
      have hbb : b < 256 := hb b (by simp)
      have hrest : ∀ q ∈ rest, q < 256 := fun q hq => hb q (by simp [hq])
      have hdiv : b / 16 < 16 := by omega
      have hmod : b % 16 < 16 := by omega
      have h5 : (!is_ws (upHex (b / 16))) = true := by rw [is_ws_upHex _ hdiv]; rfl
      have h6 : (!is_ws (upHex (b % 16))) = true := by rw [is_ws_upHex _ hmod]; rfl
      have hfilter : (hex_render_spec (b :: rest) bpl count).filter (fun c => !is_ws c) =
          '0' :: 'x' :: upHex (b / 16) :: upHex (b % 16) ::
            (hex_render_spec rest bpl (count + 1)).filter (fun c => !is_ws c) := by
        by_cases hif : (count + 1) % bpl = 0 <;>
          simp [hex_render_spec, hif, List.filter_cons, List.filter_append,
            not_ws_zero, not_ws_x, not_ws_space, not_ws_nl, h5, h6]
      rw [hfilter]
      simp only [strip0x, decode_hex]
      rw [hexVal_up _ hdiv, hexVal_up _ hmod, ih hrest (count + 1)]
      congr 1
      omega

/-! ### Claims -/

/-- C1: the implementation does not surface a truncated trailing packet as an
error.  Evaluating the embedded `read_packet` at the claim's scenario —
`packetLength = 8` with a trailing 3-byte fragment as the remaining content —
shows the fragment is yielded as an ordinary packet: no FramingError is
raised and nothing is dropped, contradicting the stated truncation policy. -/
theorem read_packet_truncated_trailing_yielded :
    read_packet 8 [170, 187, 204] = [[170, 187, 204]] := by
  simp [read_packet]

/-- C2: `tlm_display_string`, on each of the three recognized output modes, is
exactly the accumulated message followed by the rendering of the depth-first
pre-order flattening of the tree: array elements at indices 0..length-1 in
ascending order under `basePath[i]`, container fields in declared order under
`basePath.name`, one (path, value) pair per scalar leaf, appended in traversal
order. -/
theorem tlm_display_string_preorder (flag : String)
    (hf : flag = "screen" ∨ flag = "labels" ∨ flag = "values")
    (t : TypedValue) (base msg : String) :
    tlm_display_string flag t base msg =
      msg ++ str_concat ((flatten t base).map (render_leaf flag)) :=
  tds_eq_flatten flag hf t base msg

/-- C2 witness: the refinement theorem evaluated at a concrete nested tree in
`values` mode. -/
theorem tlm_display_string_preorder_witness :
    (("values" : String) = "screen" ∨ ("values" : String) = "labels" ∨
      ("values" : String) = "values") ∧
    tlm_display_string "values"
        (.Container [("a", .Scalar "1"), ("b", .Array [.Scalar "2", .Scalar "3"])]) "T" "" =
      "" ++ str_concat
        ((flatten (.Container [("a", .Scalar "1"), ("b", .Array [.Scalar "2", .Scalar "3"])])
            "T").map (render_leaf "values")) :=
  ⟨Or.inr (Or.inr rfl),
    tlm_display_string_preorder "values" (Or.inr (Or.inr rfl))
      (.Container [("a", .Scalar "1"), ("b", .Array [.Scalar "2", .Scalar "3"])]) "T" ""⟩

/-- C3 counterexample: a well-formed source holding only the 4-byte length
header (value 8) and zero packets produces zero output lines — the header
line is written inside the packet loop, so with N = 0 the run writes 0 lines,
not N + 1 = 1. -/
theorem conversion_zero_packets_cex :
    count_writes (main_run decode0 [0, 0, 0, 8]).1 = 0 ∧ (0 : Nat) ≠ 0 + 1 := by
  constructor
  · have h : read_packet 8 ([] : List Nat) = [] := read_packet_nil 8
    simp [main_run, int_from_bytes, h, main_loop, count_writes]
  · decide

/-- C3 amended: for every source whose packet stream is non-empty (N ≥ 1
packets) and whose packets all decode successfully, the run writes exactly
N + 1 lines — the header line built from the FIRST record, exactly once and
before the first data line, followed by one value line per packet in input
order.  (For N = 0 the run writes no lines at all, as the counterexample
shows.) -/
theorem conversion_line_count (decode : List Nat → Except String (String × TypedValue))
    (f : List Nat → String × TypedValue) (source : List Nat)
    (p : List Nat) (ps : List (List Nat))
    (hp : read_packet (int_from_bytes (source.take 4)) (source.drop 4) = p :: ps)
    (hok : ∀ q ∈ p :: ps, decode q = Except.ok (f q)) :
    (main_run decode source).1 =
      (Ev.write (tlm_display_string "labels" (f p).2 (f p).1 "" ++ "\n") ::
        (p :: ps).map (fun q => Ev.write (tlm_display_string "values" (f q).2 (f q).1 "" ++ "\n"))) ++
      [Ev.close_fin, Ev.close_fout] ∧
    count_writes (main_run decode source).1 = (p :: ps).length + 1 := by
  have hloop := main_loop_ok_false decode f p ps hok
  constructor
  · simp [main_run, hp, hloop]
  · simp [main_run, hp, hloop, count_writes, count_writes_append, count_writes_map_write]

/-- C3 witness: a source with length header 2 and two 2-byte packets, under a
decoder that always succeeds, writes exactly 3 lines: the header line first,
then the two value lines. -/
theorem conversion_line_count_witness :
    read_packet (int_from_bytes (([0, 0, 0, 2, 5, 6, 7, 8] : List Nat).take 4))
        (([0, 0, 0, 2, 5, 6, 7, 8] : List Nat).drop 4) = [5, 6] :: [[7, 8]] ∧
    (∀ q ∈ ([5, 6] : List Nat) :: [[7, 8]],
      decode0 q = Except.ok ((fun _ => ("T", TypedValue.Scalar "1")) q)) ∧
    ((main_run decode0 [0, 0, 0, 2, 5, 6, 7, 8]).1 =
      (Ev.write (tlm_display_string "labels" (TypedValue.Scalar "1") "T" "" ++ "\n") ::
        (([5, 6] : List Nat) :: [[7, 8]]).map
          (fun _ => Ev.write (tlm_display_string "values" (TypedValue.Scalar "1") "T" "" ++ "\n"))) ++
      [Ev.close_fin, Ev.close_fout] ∧
    count_writes (main_run decode0 [0, 0, 0, 2, 5, 6, 7, 8]).1 =
      (([5, 6] : List Nat) :: [[7, 8]]).length + 1) :=
  ⟨by simp [int_from_bytes, read_packet], fun q _ => rfl,
    conversion_line_count decode0 (fun _ => ("T", TypedValue.Scalar "1"))
      [0, 0, 0, 2, 5, 6, 7, 8] [5, 6] [[7, 8]]
      (by simp [int_from_bytes, read_packet]) (fun q _ => rfl)⟩

/-- C4: flattening is shape-determined.  For any two trees with the same
structural shape (same message type), the sequence of paths emitted is
identical, and the whole `labels`-mode output of `tlm_display_string` is
identical — the traversal branches only on structural kind, never on leaf
values.  (Purity and idempotence of each flattening hold definitionally in
this functional embedding: the same tree always yields the same output.) -/
theorem flatten_shape_stable (a b : TypedValue) (base msg : String)
    (h : tlm_shape a = tlm_shape b) :
    (flatten a base).map Prod.fst = (flatten b base).map Prod.fst ∧
    tlm_display_string "labels" a base msg = tlm_display_string "labels" b base msg := by
  have hp : (flatten a base).map Prod.fst = (flatten b base).map Prod.fst := by
    rw [flatten_paths, flatten_paths, h]
  refine ⟨hp, ?_⟩
  rw [tds_eq_flatten "labels" (Or.inr (Or.inl rfl)) a base msg,
    tds_eq_flatten "labels" (Or.inr (Or.inl rfl)) b base msg,
    render_labels_map, render_labels_map, hp]

/-- C4 witness: two same-shape containers with different leaf values have the
same paths and the same labels-mode output. -/
theorem flatten_shape_stable_witness :
    tlm_shape (.Container [("x", .Scalar "1"), ("y", .Scalar "2")]) =
      tlm_shape (.Container [("x", .Scalar "9"), ("y", .Scalar "8")]) ∧
    ((flatten (.Container [("x", .Scalar "1"), ("y", .Scalar "2")]) "HK").map Prod.fst =
      (flatten (.Container [("x", .Scalar "9"), ("y", .Scalar "8")]) "HK").map Prod.fst ∧
    tlm_display_string "labels" (.Container [("x", .Scalar "1"), ("y", .Scalar "2")]) "HK" "" =
      tlm_display_string "labels" (.Container [("x", .Scalar "9"), ("y", .Scalar "8")]) "HK" "") :=
  ⟨by simp [tlm_shape, tlm_shape_fields],
    flatten_shape_stable (.Container [("x", .Scalar "1"), ("y", .Scalar "2")])
      (.Container [("x", .Scalar "9"), ("y", .Scalar "8")]) "HK" ""
      (by simp [tlm_shape, tlm_shape_fields])⟩

/-- C5: `hex_string` on the hex character string of any byte sequence renders
each byte as `0x` plus two uppercase hex digits, space-separated, with a line
break after every `bytes_per_line` bytes (the specification-level rendering),
and stripping the `0x` markers and all whitespace from the result and decoding
the remaining hex digit pairs reconstructs the byte sequence exactly. -/
theorem hex_string_round_trip (bs : List Nat) (bytes_per_line : Nat)
    (hb : ∀ b ∈ bs, b < 256) (_hpos : 0 < bytes_per_line) :
    hex_string (bytes_hex bs) bytes_per_line = hex_render_spec bs bytes_per_line 0 ∧
    decode_hex (strip0x
        ((hex_string (bytes_hex bs) bytes_per_line).filter (fun c => !is_ws c))) = bs := by
  have h1 : hex_string (bytes_hex bs) bytes_per_line = hex_render_spec bs bytes_per_line 0 :=
    hex_string_go_spec bytes_per_line bs hb 0
  refine ⟨h1, ?_⟩
  rw [h1]
  exact hex_render_decode bytes_per_line bs hb 0

/-- C5 witness: the round trip evaluated at the bytes `[0, 171, 255]` with two
bytes per line. -/
theorem hex_string_round_trip_witness :
    (∀ b ∈ ([0, 171, 255] : List Nat), b < 256) ∧ 0 < 2 ∧
    (hex_string (bytes_hex [0, 171, 255]) 2 = hex_render_spec [0, 171, 255] 2 0 ∧
      decode_hex (strip0x
        ((hex_string (bytes_hex [0, 171, 255]) 2).filter (fun c => !is_ws c))) = [0, 171, 255]) :=
  ⟨by decide, by decide, hex_string_round_trip [0, 171, 255] 2 (by decide) (by decide)⟩

/-- C6 counterexample: an unrecognized output mode is not fatal.  On a scalar
leaf with mode `"bogus"`, `tlm_display_string` returns the empty string — a
normally returned (empty) result that moreover discards the message
accumulated so far — rather than failing. -/
theorem tds_unknown_mode_cex :
    tlm_display_string "bogus" (.Scalar "1") "HK.x" "accumulated, " = "" := by
  simp [tlm_display_string]

/-- C6 amended: when an output mode other than `screen`, `labels` or `values`
reaches the formatter, the operation does not fail: the source's `else`
branch prints a diagnostic and resets the result to the empty string, so the
call returns `""` whenever the tree contains at least one scalar leaf, and
returns the accumulated message unchanged otherwise. -/
theorem tds_unknown_mode_returns_empty (flag : String) (t : TypedValue) (base msg : String)
    (h1 : flag ≠ "screen") (h2 : flag ≠ "labels") (h3 : flag ≠ "values") :
    tlm_display_string flag t base msg = if has_scalar t then "" else msg :=
  tds_bad_mode flag h1 h2 h3 t base msg

/-- C6 witness: the amended statement evaluated at mode `"csv"` on a concrete
container. -/
theorem tds_unknown_mode_returns_empty_witness :
    (("csv" : String) ≠ "screen") ∧ (("csv" : String) ≠ "labels") ∧
    (("csv" : String) ≠ "values") ∧
    tlm_display_string "csv" (.Container [("a", .Scalar "7")]) "T" "m" =
      if has_scalar (.Container [("a", .Scalar "7")]) then "" else "m" :=
  ⟨by decide, by decide, by decide,
    tds_unknown_mode_returns_empty "csv" (.Container [("a", .Scalar "7")]) "T" "m"
      (by decide) (by decide) (by decide)⟩

/-- C7 counterexample: a zero length header is not validated and is not fatal.
With a source whose first 4 bytes encode 0 followed by non-empty trailing
content, the run completes normally — `read(0)` returns zero bytes, the
packet loop yields nothing, no error is raised, and the files are closed as
on any successful run. -/
theorem zero_length_header_run_completes_cex :
    main_run decode0 [0, 0, 0, 0, 1, 2, 3] = ([Ev.close_fin, Ev.close_fout], none) := by
  simp [main_run, int_from_bytes, read_packet_zero, main_loop]

/-- C7 amended: the packet length learned from the first 4 bytes (big-endian
unsigned) is never validated; whenever it is zero — including the absent
header case, where reading fewer than 4 bytes decodes to 0 — the run is not
aborted: the stream immediately ends, nothing is written, and the run
completes normally. -/
theorem zero_length_header_no_abort (decode : List Nat → Except String (String × TypedValue))
    (source : List Nat) (hz : int_from_bytes (source.take 4) = 0) :
    main_run decode source = ([Ev.close_fin, Ev.close_fout], none) := by
  simp [main_run, hz, read_packet_zero, main_loop]

/-- C7 witness: the amended statement evaluated on a header of four zero bytes
followed by one byte of content, under the always-failing decoder (which is
never reached). -/
theorem zero_length_header_no_abort_witness :
    int_from_bytes (([0, 0, 0, 0, 9] : List Nat).take 4) = 0 ∧
    main_run decodeFail [0, 0, 0, 0, 9] = ([Ev.close_fin, Ev.close_fout], none) :=
  ⟨by decide, zero_length_header_no_abort decodeFail [0, 0, 0, 0, 9] (by decide)⟩

/-- C8 counterexample: a decode exception during streaming escapes `main`
without `fin.close()` or `fout.close()` being executed — the closes are not
in a `finally`-style block.  Concretely, with one packet and a failing
decoder the run ends with the exception and its event trace contains neither
close event. -/
theorem decode_error_skips_close_cex :
    (main_run decodeFail [0, 0, 0, 2, 5, 6]).2 = some "decode" ∧
    Ev.close_fin ∉ (main_run decodeFail [0, 0, 0, 2, 5, 6]).1 ∧
    Ev.close_fout ∉ (main_run decodeFail [0, 0, 0, 2, 5, 6]).1 := by
  have h : read_packet 2 [5, 6] = [[5, 6]] := by simp [read_packet]
  refine ⟨?_, ?_, ?_⟩ <;> simp [main_run, int_from_bytes, h, main_loop, decodeFail]

/-- C8 amended: the source and destination handles are closed only on the
normal-completion exit path.  When the streaming loop ends without an
exception the trace is some writes followed by `fin.close()` then
`fout.close()`; when a decode exception propagates, the trace contains no
close event at all. -/
theorem close_only_on_normal_completion
    (decode : List Nat → Except String (String × TypedValue)) (source : List Nat) :
    (∀ err, (main_run decode source).2 = some err →
      Ev.close_fin ∉ (main_run decode source).1 ∧
        Ev.close_fout ∉ (main_run decode source).1) ∧
    ((main_run decode source).2 = none →
      ∃ ws, (∀ e ∈ ws, ∃ s, e = Ev.write s) ∧
        (main_run decode source).1 = ws ++ [Ev.close_fin, Ev.close_fout]) := by
  rcases hl : main_loop decode false
      (read_packet (int_from_bytes (source.take 4)) (source.drop 4)) with ⟨evs, err⟩
  have hw : ∀ e ∈ evs, ∃ s, e = Ev.write s := by
    intro e he
    refine main_loop_writes_only decode
      (read_packet (int_from_bytes (source.take 4)) (source.drop 4)) false e ?_
    rw [hl]
    exact he
  cases err with
  | some e =>
      constructor
      · intro err2 _
        have h1 : (main_run decode source).1 = evs := by simp [main_run, hl]
        rw [h1]
        constructor
        · intro hmem
          obtain ⟨s, hs⟩ := hw _ hmem
          simp at hs
        · intro hmem
          obtain ⟨s, hs⟩ := hw _ hmem
          simp at hs
      · intro hnone
        rw [show (main_run decode source).2 = some e from by simp [main_run, hl]] at hnone
        simp at hnone
  | none =>
      constructor
      · intro err2 herr
        rw [show (main_run decode source).2 = none from by simp [main_run, hl]] at herr
        simp at herr
      · intro _
        exact ⟨evs, hw, by simp [main_run, hl]⟩

/-- C8 witness: on a successfully completing run the trace is writes followed
by the two closes. -/
theorem close_only_on_normal_completion_witness :
    ∃ ws, (∀ e ∈ ws, ∃ s, e = Ev.write s) ∧
      (main_run decode0 [0, 0, 0, 1, 7]).1 = ws ++ [Ev.close_fin, Ev.close_fout] :=
  (close_only_on_normal_completion decode0 [0, 0, 0, 1, 7]).2 (by
    have h : read_packet 1 [7] = [[7]] := by simp [read_packet]
    simp [main_run, int_from_bytes, h, main_loop, decode0])

/-- C9: for a positive packet length, `read_packet` is the finite single-pass
sequence of successive consecutive reads: it is empty exactly when the
remaining content is empty (a read returning zero bytes, clean EOF), and
otherwise yields the next read (`take packet_length`) followed by the stream
of the remaining content. -/
theorem read_packet_single_pass (pl : Nat) (h : 0 < pl) (content : List Nat) :
    (read_packet pl content = [] ↔ content = []) ∧
    read_packet pl content =
      if content = [] then [] else content.take pl :: read_packet pl (content.drop pl) := by
  refine ⟨?_, read_packet_eq pl h content⟩
  rw [read_packet_eq pl h content]
  by_cases hc : content = [] <;> simp [hc]

/-- C9 witness: the characterization evaluated at packet length 3 on a 4-byte
content. -/
theorem read_packet_single_pass_witness :
    0 < 3 ∧
    ((read_packet 3 [9, 8, 7, 6] = [] ↔ ([9, 8, 7, 6] : List Nat) = []) ∧
      read_packet 3 [9, 8, 7, 6] =
        if ([9, 8, 7, 6] : List Nat) = [] then []
        else ([9, 8, 7, 6] : List Nat).take 3 :: read_packet 3 (([9, 8, 7, 6] : List Nat).drop 3)) :=
  ⟨by decide, read_packet_single_pass 3 (by decide) [9, 8, 7, 6]⟩

/-- C10: for a positive packet length, the concatenation of all yielded
packets is exactly the remaining source content, and when that content is not
a multiple of the packet length the stream ends with a final short chunk —
non-empty, of length `content.length % packet_length`, strictly shorter than
the packet length — yielded like any other packet (no error, no discard). -/
theorem read_packet_content_preserved (pl : Nat) (h : 0 < pl) (content : List Nat) :
    (read_packet pl content).flatten = content ∧
    (content.length % pl ≠ 0 →
      ∃ last, (read_packet pl content).getLast? = some last ∧
        last.length = content.length % pl ∧ last ≠ [] ∧ last.length < pl) :=
  ⟨read_packet_flatten pl h content, fun hm => read_packet_getLast pl h content hm⟩

/-- C10 witness: the content-preservation statement evaluated at packet
length 2 on a 3-byte content, whose final chunk is the short `[3]`. -/
theorem read_packet_content_preserved_witness :
    0 < 2 ∧
    ((read_packet 2 [1, 2, 3]).flatten = [1, 2, 3] ∧
      (([1, 2, 3] : List Nat).length % 2 ≠ 0 →
        ∃ last, (read_packet 2 [1, 2, 3]).getLast? = some last ∧
          last.length = ([1, 2, 3] : List Nat).length % 2 ∧ last ≠ [] ∧ last.length < 2)) :=
  ⟨by decide, read_packet_content_preserved 2 (by decide) [1, 2, 3]⟩
